import Mathlib

/-!
Verification of the caseViewer repository (src/mainApp.py): a shallow
embedding of its filename-metadata parser, per-case image index builder,
common-view reconciliation, frame resolution and layout logic, together
with theorems settling the specification's claims about them.

Python strings are embedded as `List Char`; Python dicts (which preserve
insertion order) as association lists; filesystem and image-decoding
effects as explicit oracles; operations that can raise (`list[i]`,
`dict[k]`, `Image.open`) return `Option`, with `none` for the raised
exception.
-/

namespace CaseViewer

/-- A Python string, embedded as its list of characters. -/
abbrev Str := List Char

/-! ## Regex primitives used by `parse_metadata`

`re.findall(r"\d+", s)` returns the maximal digit runs of `s` in order;
`re.search(r"(\d{6})", s)` returns the leftmost window of six consecutive
digits (with no boundary assertions, so the window may sit inside a longer
digit run). -/

/-- `re.findall(r"\d+", s)`: the maximal runs of consecutive digits of `s`,
left to right. -/
def digitRuns : Str → List Str
  | [] => []
  | c :: cs =>
    if c.isDigit then
      (c :: cs.takeWhile Char.isDigit) :: digitRuns (cs.dropWhile Char.isDigit)
    else
      digitRuns cs
termination_by s => s.length
decreasing_by
  · exact Nat.lt_succ_of_le (List.dropWhile_sublist Char.isDigit).length_le
  · exact Nat.lt_succ_self _

/-- Structural accumulator implementation of `digitRuns`, reducible by
the kernel on concrete inputs; `digitRuns_eq_digitRunsAux` below proves
it computes `digitRuns`. -/
def digitRunsAux : Str → Str → List Str
  | [], acc => if acc = [] then [] else [acc.reverse]
  | c :: cs, acc =>
    if c.isDigit then digitRunsAux cs (c :: acc)
    else if acc = [] then digitRunsAux cs []
    else acc.reverse :: digitRunsAux cs []

/-- `re.search(r"(\d{6})", s)`: the leftmost window of six consecutive
digit characters of `s`, if one exists. -/
def searchSixDigits : Str → Option Str
  | [] => none
  | c :: cs =>
    if ((c :: cs).take 6).length = 6 ∧ ((c :: cs).take 6).all Char.isDigit then
      some ((c :: cs).take 6)
    else searchSixDigits cs

/-- Python `int(...)` applied to a (possibly zero-padded) digit string. -/
def digitsToNat (s : Str) : Nat :=
  s.foldl (fun acc c => acc * 10 + (c.toNat - 48)) 0

/-! ## `os.path.splitext` and `str.split("_")` -/

/-- The index of the last `'.'` of `s`, if any. -/
def lastDotIdx (s : Str) : Option Nat :=
  ((List.range s.length).filter (fun i => s.getD i ' ' == '.')).getLast?

/-- The stem component of `os.path.splitext(filename)` for a plain
filename (a directory entry, containing no path separator): everything
before the last `'.'`, unless every character before that dot is itself a
dot, in which case the name has no extension. -/
def splitextStem (s : Str) : Str :=
  match lastDotIdx s with
  | none => s
  | some i => if (s.take i).any (fun c => c ≠ '.') then s.take i else s

/-- Python `s.split("_")`: always a non-empty list of (possibly empty)
tokens. -/
def splitUnderscore : Str → List Str
  | [] => [[]]
  | c :: cs =>
    match splitUnderscore cs with
    | [] => [[]]
    | t :: ts => if c = '_' then [] :: t :: ts else (c :: t) :: ts

/-! ## The filename metadata parser (`parse_metadata`, mainApp.py:35-50) -/

/-- The metadata dict built by `parse_metadata`.  Every assignment to
`sort_key` in the source is `0` or `int(...)`, so the field is embedded
as an integer. -/
structure Metadata where
  view : Str
  sort_key : Int
deriving DecidableEq

/-- `parse_metadata(filename)` (mainApp.py:35-50): strip the extension,
split the stem on `_`; `view` is token 3 when more than 3 tokens exist,
else the last token; `sort_key` is the leftmost 6-consecutive-digit
window of the stem, else the last maximal digit run, else 0. -/
def parse_metadata (filename : Str) : Metadata :=
  let name_no_ext := splitextStem filename
  let parts := splitUnderscore name_no_ext
  let view := if parts.length > 3 then parts.getD 3 [] else parts.getLastD []
  let sort_key : Int :=
    match searchSixDigits name_no_ext with
    | some run => (digitsToNat run : Int)
    | none =>
      match (digitRuns name_no_ext).getLast? with
      | some run => (digitsToNat run : Int)
      | none => 0
  { view := view, sort_key := sort_key }

/-- `parse_metadata` with Python's partiality made explicit: `parts[3]`
and `parts[-1]` raise `IndexError` when out of range, modelled by
`none`. -/
def parse_metadata_checked (filename : Str) : Option Metadata :=
  let name_no_ext := splitextStem filename
  let parts := splitUnderscore name_no_ext
  match (if parts.length > 3 then parts[3]? else parts.getLast?) with
  | none => none
  | some view =>
    let sort_key : Int :=
      match searchSixDigits name_no_ext with
      | some run => (digitsToNat run : Int)
      | none =>
        match (digitRuns name_no_ext).getLast? with
        | some run => (digitsToNat run : Int)
        | none => 0
    some { view := view, sort_key := sort_key }

/-! ## The case index builder (`load_image_metadata`, mainApp.py:54-84)

The directory lister is an oracle mapping a path (kept as its list of
components, as assembled by `os.path.join`) to its entries, `none` when
the path does not exist; `os.path.exists` is `≠ none` on this oracle. -/

/-- A filesystem path, as the components joined by `os.path.join`. -/
abbrev PathC := List Str

/-- The directory-listing oracle: `some entries` when the directory
exists (the result of `os.listdir`), `none` when it does not. -/
abbrev FileSys := PathC → Option (List Str)

/-- `os.path.join(root_dir, case, "postProcessing", "images",
variable_folder)` (mainApp.py:59-61). -/
def imagesDirPath (root_dir caseId variable_folder : Str) : PathC :=
  [root_dir, caseId, "postProcessing".data, "images".data, variable_folder]

/-- `f.lower().endswith((".png", ".jpg", ".jpeg"))` (mainApp.py:66-69). -/
def hasImageExt (f : Str) : Bool :=
  let l := f.map Char.toLower
  ".png".data.isSuffixOf l || ".jpg".data.isSuffixOf l || ".jpeg".data.isSuffixOf l

/-- One entry of a view's sequence: `(meta["sort_key"], full_path)`
(mainApp.py:79). -/
abbrev Frame := Int × PathC

/-- One case's dict `view → list of (sort_key, full_path)`.  Python dicts
preserve insertion order, so the dict is an association list. -/
abbrev ViewMap := List (Str × List Frame)

/-- The whole dataset dict `case → view → sequence`. -/
abbrev Dataset := List (Str × ViewMap)

/-- `dataset[case][view].append(entry)`, creating `dataset[case][view] =
[]` first when the view key is absent (mainApp.py:75-79). -/
def viewInsert (m : ViewMap) (view : Str) (entry : Frame) : ViewMap :=
  match m with
  | [] => [(view, [entry])]
  | (v, seq) :: rest =>
    if v = view then (v, seq ++ [entry]) :: rest
    else (v, seq) :: viewInsert rest view entry

/-- The per-file loop of `load_image_metadata` (mainApp.py:71-79): parse
each file and append `(sort_key, full_path)` to its view's list, in
enumeration order. -/
def buildViewMap (dirPath : PathC) (files : List Str) : ViewMap :=
  files.foldl
    (fun m f =>
      let meta := parse_metadata f
      viewInsert m meta.view (meta.sort_key, dirPath ++ [f]))
    []

/-- What it means for a view map to be built from parsed files under
directory `dirPath`: every sequence is non-empty and each entry comes
from parsing some filename whose parsed view is the entry's key. -/
def BuiltFrom (dirPath : PathC) (m : ViewMap) : Prop :=
  ∀ p ∈ m, p.2 ≠ [] ∧ ∀ x ∈ p.2, ∃ fname,
    x = ((parse_metadata fname).sort_key, dirPath ++ [fname]) ∧
    p.1 = (parse_metadata fname).view

/-- Insertion of a later-appended entry into a key-sorted list: it goes
after every entry whose key is not greater, which is the position
Python's stable sort assigns it. -/
def insertSorted (e : Frame) : List Frame → List Frame
  | [] => [e]
  | x :: xs => if x.1 ≤ e.1 then x :: insertSorted e xs else e :: x :: xs

/-- The per-view sort `dataset[case][view].sort(key=lambda x: x[0])`
(mainApp.py:81-82).  Python's `list.sort` is stable and orders by the
key `lambda x: x[0]`; a stable sort's output is uniquely determined by
that contract, and it is embedded here as a stable insertion sort
(sortedness, stability and the permutation property are proved below in
`stableSortKey_spec`). -/
def stableSortKey (l : List Frame) : List Frame :=
  l.foldl (fun acc e => insertSorted e acc) []

/-- Sorting every view's sequence (the loop of mainApp.py:81-82). -/
def sortViewMap (m : ViewMap) : ViewMap :=
  m.map (fun p => (p.1, stableSortKey p.2))

set_option synthInstance.maxSize 1024 in
instance instDecEqDataset : DecidableEq Dataset :=
  fun a b => instDecidableEqList a b

/-- `dataset[case] = vm`: Python dict assignment (replace an existing
binding, else append). -/
def dsSet (ds : Dataset) (caseId : Str) (vm : ViewMap) : Dataset :=
  match ds with
  | [] => [(caseId, vm)]
  | (c, m) :: rest =>
    if c = caseId then (c, vm) :: rest else (c, m) :: dsSet rest caseId vm

/-- `dataset[case]` as a lookup: `none` models the `KeyError` Python
raises when the key is absent. -/
def dsGet (ds : Dataset) (caseId : Str) : Option ViewMap :=
  (ds.find? (fun p => decide (p.1 = caseId))).map (fun p => p.2)

/-- `vm[view]` as a lookup: `none` models `KeyError`. -/
def vmGet (vm : ViewMap) (view : Str) : Option (List Frame) :=
  (vm.find? (fun p => decide (p.1 = view))).map (fun p => p.2)

/-- `load_image_metadata(root_dir, selected_cases, variable_folder)`
(mainApp.py:54-84): for each selected case, skip it (`continue`) when its
image directory does not exist; otherwise filter the directory entries to
raster extensions, group them by parsed view, and sort each view's list
by sort key. -/
def load_image_metadata (fs : FileSys) (root_dir : Str)
    (selected_cases : List Str) (variable_folder : Str) : Dataset :=
  selected_cases.foldl
    (fun dataset caseId =>
      let path := imagesDirPath root_dir caseId variable_folder
      match fs path with
      | none => dataset
      | some entries =>
        let files := entries.filter hasImageExt
        dsSet dataset caseId (sortViewMap (buildViewMap path files)))
    []

/-! ## Common-view reconciliation (`main`, mainApp.py:259-269) -/

/-- The loop body of the common-views computation: `case_views =
set(dataset[case].keys())`, intersected into the accumulator.  The outer
`Option` models the `KeyError` raised by `dataset[case]` when a selected
case has no entry; the inner `Option` is the Python variable
`common_views`, initially `None`.  Set intersection is modelled on the
key lists, whose membership matches the Python sets. -/
def commonViewsLoop (dataset : Dataset) :
    List Str → Option (List Str) → Option (Option (List Str))
  | [], acc => some acc
  | caseId :: rest, acc =>
    match dsGet dataset caseId with
    | none => none
    | some vm =>
      let case_views := vm.map (fun p => p.1)
      match acc with
      | none => commonViewsLoop dataset rest (some case_views)
      | some cur =>
        commonViewsLoop dataset rest
          (some (cur.filter (fun v => decide (v ∈ case_views))))

/-- The common-views computation of `main` (mainApp.py:259-265). -/
def common_views (dataset : Dataset) (selected_cases : List Str) :
    Option (Option (List Str)) :=
  commonViewsLoop dataset selected_cases none

/-! ## Frame resolution and per-case image loading (`main`,
mainApp.py:299-307 and 350-357) -/

/-- `idx = min(frame_index, len(case_imgs) - 1); case_imgs[idx]`
(mainApp.py:303-304): the clamped frame lookup.  On an empty list Python
computes `min(frame_index, -1) = -1` and `case_imgs[-1]` raises
`IndexError`; in the `Nat` embedding the index is `0` and the lookup is
likewise `none`. -/
def resolveFrame (case_imgs : List Frame) (frame_index : Nat) : Option Frame :=
  case_imgs[min frame_index (case_imgs.length - 1)]?

/-- The image-decoding collaborator (`Image.open` + resize,
`load_and_resize_image`, mainApp.py:88-99), as an oracle from the frame's
path to a raster; `none` models the decode exception, which
`load_and_resize_image` does not catch. -/
abbrev Codec (α : Type) := PathC → Option α

/-- One iteration of the per-case loop of `main` (mainApp.py:302-305):
`case_imgs = dataset[case][view_selection]`, clamp, index, decode.  Any
raised exception, `KeyError` or a decode error, is `none`. -/
def loadOneCase {α : Type} (codec : Codec α) (dataset : Dataset)
    (view_selection : Str) (frame_index : Nat) (caseId : Str) : Option α :=
  match dsGet dataset caseId with
  | none => none
  | some vm =>
    match vmGet vm view_selection with
    | none => none
    | some case_imgs =>
      match resolveFrame case_imgs frame_index with
      | none => none
      | some fr => codec fr.2

/-- The per-case image-loading loop of `main` (mainApp.py:299-305, and
identically 352-357, 370-375): build `case → image` in order; an
exception in any iteration propagates and aborts the whole loop (the
source has no `try`/`except`). -/
def loadImagesLoop {α : Type} (codec : Codec α) (dataset : Dataset)
    (view_selection : Str) (frame_index : Nat) : List Str → Option (List (Str × α))
  | [] => some []
  | caseId :: rest =>
    match loadOneCase codec dataset view_selection frame_index caseId with
    | none => none
    | some img =>
      match loadImagesLoop codec dataset view_selection frame_index rest with
      | none => none
      | some imgs => some ((caseId, img) :: imgs)

/-- The frame-lookup chain of one loop iteration without the decode step:
which frame descriptor the case shows for `(view, position)`; `none` is
the "missing" marker. -/
def resolveCase (dataset : Dataset) (view_selection : Str)
    (frame_index : Nat) (caseId : Str) : Option Frame :=
  match dsGet dataset caseId with
  | none => none
  | some vm =>
    match vmGet vm view_selection with
    | none => none
    | some case_imgs => resolveFrame case_imgs frame_index

/-! ## Layout arithmetic (`main`, mainApp.py:359 and 377;
`create_combined_grid`, mainApp.py:103-116) -/

/-- Side-by-Side mode: `st.columns(len(images))` (mainApp.py:359), one
column per item. -/
def side_by_side_cols (itemCount : Nat) : Nat := itemCount

/-- Grid View mode: `cols = 3` (mainApp.py:377), independent of the item
count. -/
def grid_view_cols (_itemCount : Nat) : Nat := 3

/-- `rows = math.ceil(len(pil_images) / cols)` (mainApp.py:108), as exact
ceiling division. -/
def create_combined_grid_rows (n cols : Nat) : Nat := (n + cols - 1) / cols

/-! ## Definitions taken from the specification's words, for comparison
with the source (refinement checks only; everything above is translated
from mainApp.py). -/

/-- Modelled from the spec (claim C1's rule, spec §4.1): search the stem
for a contiguous (maximal) digit run of exactly 6 digits; if found, that
run as an integer; else the last digit run; else 0. -/
def claimed_sort_key (filename : Str) : Int :=
  let stem := splitextStem filename
  match (digitRuns stem).find? (fun r => decide (r.length = 6)) with
  | some r => (digitsToNat r : Int)
  | none =>
    match (digitRuns stem).getLast? with
    | some r => (digitsToNat r : Int)
    | none => 0

/-- Modelled from the spec (claim C8's column policy, spec §4.5): fewer
than 4 items → 2 columns; 4 or more → 3 columns. -/
def claimedCols (itemCount : Nat) : Nat := if itemCount < 4 then 2 else 3

/-- The sort-key rule the source actually implements (the amended claim
C1), phrased over maximal digit runs: the first six digits of the first
maximal run of length at least 6 (the `\d{6}` window need not be a whole
run), else the last run, else 0. -/
def amended_sort_key_rule (filename : Str) : Int :=
  match (digitRuns (splitextStem filename)).find? (fun r => decide (6 ≤ r.length)) with
  | some r => (digitsToNat (r.take 6) : Int)
  | none =>
    match (digitRuns (splitextStem filename)).getLast? with
    | some r => (digitsToNat r : Int)
    | none => 0

/-! ## Concrete fixtures used by witnesses and counterexamples -/

/-- A concrete directory oracle: case `A` has views front (2 frames,
enumerated out of key order) and top; case `B` has views front and side
plus one non-raster file. -/
def fsAB : FileSys := fun p =>
  if p = imagesDirPath "root".data "A".data "U".data then
    some ["x_x_x_front_000002.png".data, "x_x_x_front_000001.png".data,
      "x_x_x_top_000001.png".data]
  else if p = imagesDirPath "root".data "B".data "U".data then
    some ["x_x_x_front_000001.png".data, "x_x_x_side_000001.png".data,
      "notes.txt".data]
  else none

/-- The dataset built from `fsAB`. -/
def dsAB : Dataset := load_image_metadata fsAB "root".data ["A".data, "B".data] "U".data

def pathAU : PathC := imagesDirPath "root".data "A".data "U".data

def pathBU : PathC := imagesDirPath "root".data "B".data "U".data

/-- Case `A`'s view map inside `dsAB`. -/
def vmA : ViewMap :=
  [("front".data, [(1, pathAU ++ ["x_x_x_front_000001.png".data]),
      (2, pathAU ++ ["x_x_x_front_000002.png".data])]),
   ("top".data, [(1, pathAU ++ ["x_x_x_top_000001.png".data])])]

/-- Case `B`'s view map inside `dsAB`. -/
def vmB : ViewMap :=
  [("front".data, [(1, pathBU ++ ["x_x_x_front_000001.png".data])]),
   ("side".data, [(1, pathBU ++ ["x_x_x_side_000001.png".data])])]

/-- Case `A`'s front sequence inside `dsAB`. -/
def seqAfront : List Frame :=
  [(1, pathAU ++ ["x_x_x_front_000001.png".data]),
   (2, pathAU ++ ["x_x_x_front_000002.png".data])]

/-- A decoding oracle that fails on exactly one frame of `dsAB` (case
A's first front frame) and succeeds everywhere else. -/
def codecBad : Codec Nat := fun p =>
  if p = pathAU ++ ["x_x_x_front_000001.png".data] then none else some 0

/-! ## Parser lemmas -/

/-- `str.split` never returns an empty list, so `parts[-1]` cannot
raise. -/
theorem splitUnderscore_ne_nil (s : Str) : splitUnderscore s ≠ [] := by
  induction s with
  | nil => simp [splitUnderscore]
  | cons c cs ih =>
    simp only [splitUnderscore]
    cases h : splitUnderscore cs with
    | nil => simp
    | cons t ts =>
      by_cases hc : c = '_' <;> simp [hc]

/-- The checked parser never raises: it agrees with the total one on
every input. -/
theorem parse_metadata_checked_eq (filename : Str) :
    parse_metadata_checked filename = some (parse_metadata filename) := by
  unfold parse_metadata_checked parse_metadata
  have hne := splitUnderscore_ne_nil (splitextStem filename)
  by_cases h : (splitUnderscore (splitextStem filename)).length > 3
  · have h3 : 3 < (splitUnderscore (splitextStem filename)).length := h
    simp [h, List.getElem?_eq_getElem h3]
  · simp [h, List.getLast?_eq_getLast _ hne]

/-! ### The `\d{6}` search, characterised by maximal digit runs

`re.search(r"(\d{6})", s)` succeeds exactly when some maximal digit run
of `s` has length at least 6, and returns the first six digits of the
first such run — it does not require the run to have length exactly 6. -/

/-- A six-digit window cannot begin at a non-digit character. -/
theorem searchSixDigits_cons_of_not_digit {c : Char} (cs : Str)
    (hc : c.isDigit = false) :
    searchSixDigits (c :: cs) = searchSixDigits cs := by
  simp only [searchSixDigits]
  rw [if_neg]
  rintro ⟨-, hall⟩
  have hw : (c :: cs).take 6 = c :: cs.take 5 := rfl
  have := List.all_eq_true.mp hall c (by rw [hw]; exact List.mem_cons_self _ _)
  rw [hc] at this
  exact Bool.noConfusion this

/-- A string shorter than six characters has no six-digit window. -/
theorem searchSixDigits_eq_none_of_short (s : Str) (h : s.length < 6) :
    searchSixDigits s = none := by
  induction s with
  | nil => rfl
  | cons c cs ih =>
    simp only [searchSixDigits]
    rw [if_neg]
    · exact ih (by simp only [List.length_cons] at h; omega)
    · rintro ⟨hlen, -⟩
      rw [List.length_take] at hlen
      simp only [List.length_cons] at h hlen
      omega

/-- Scanning past a short all-digit prefix that is terminated by a
non-digit character: no six-digit window can begin inside it. -/
theorem searchSixDigits_append_of_digits {r : Str} {e : Char} (d : Str)
    (hr : ∀ c ∈ r, c.isDigit) (hlen : r.length < 6) (he : e.isDigit = false) :
    searchSixDigits (r ++ e :: d) = searchSixDigits (e :: d) := by
  induction r with
  | nil => rfl
  | cons a r ih =>
    rw [List.cons_append]
    simp only [searchSixDigits]
    rw [if_neg]
    · exact ih (fun c hc => hr c (List.mem_cons_of_mem a hc))
        (by simp only [List.length_cons] at hlen; omega)
    · rintro ⟨-, hall⟩
      have he' : e ∈ (a :: (r ++ e :: d)).take 6 := by
        rw [← List.cons_append, List.take_append_eq_append_take,
          List.take_of_length_le (Nat.le_of_lt hlen)]
        obtain ⟨k, hk⟩ : ∃ k, 6 - (a :: r).length = k + 1 := by
          simp only [List.length_cons]
          simp only [List.length_cons] at hlen
          exact ⟨6 - (r.length + 1) - 1, by omega⟩
        rw [hk, List.take_succ_cons]
        exact List.mem_append_right _ (List.mem_cons_self _ _)
      have := List.all_eq_true.mp hall e he'
      rw [he] at this
      exact Bool.noConfusion this

/-- The `\d{6}` search, in terms of maximal digit runs: it returns the
first six digits of the first maximal run of length at least 6, and
fails when no run is that long. -/
theorem searchSixDigits_eq_digitRuns (s : Str) :
    searchSixDigits s =
      ((digitRuns s).find? (fun r => decide (6 ≤ r.length))).map
        (fun r => r.take 6) := by
  induction s using digitRuns.induct with
  | case1 => simp [digitRuns, searchSixDigits]
  | case2 c cs hdig ih =>
    have hsplit : cs = cs.takeWhile Char.isDigit ++ cs.dropWhile Char.isDigit :=
      (List.takeWhile_append_dropWhile _ _).symm
    have hdr : digitRuns (c :: cs) =
        (c :: cs.takeWhile Char.isDigit) :: digitRuns (cs.dropWhile Char.isDigit) := by
      rw [digitRuns]
      simp [hdig]
    have htdig : ∀ x ∈ cs.takeWhile Char.isDigit, x.isDigit :=
      fun x hx => List.mem_takeWhile_imp hx
    by_cases hlong : 6 ≤ (c :: cs.takeWhile Char.isDigit).length
    · rw [hdr, List.find?_cons_of_pos _ (by simpa using hlong)]
      have h5 : 5 ≤ (cs.takeWhile Char.isDigit).length := by
        simp only [List.length_cons] at hlong; omega
      have hw : (c :: cs).take 6 = c :: (cs.takeWhile Char.isDigit).take 5 := by
        have h0 : (c :: cs).take 6 = c :: cs.take 5 := rfl
        rw [h0]
        conv_lhs => rw [hsplit]
        rw [List.take_append_of_le_length h5]
      have hcond : ((c :: cs).take 6).length = 6 ∧
          ((c :: cs).take 6).all Char.isDigit := by
        constructor
        · rw [hw, List.length_cons, List.length_take]; omega
        · rw [List.all_eq_true]
          intro x hx
          rw [hw] at hx
          rcases List.mem_cons.mp hx with rfl | hx
          · exact hdig
          · exact htdig x (List.take_subset 5 _ hx)
      simp only [searchSixDigits]
      rw [if_pos hcond, hw, Option.map_some']
      have h6 : (c :: cs.takeWhile Char.isDigit).take 6 =
          c :: (cs.takeWhile Char.isDigit).take 5 := rfl
      rw [h6]
    · rw [hdr, List.find?_cons_of_neg _ (by simpa using hlong), ← ih]
      have hall : ∀ x ∈ (c :: cs.takeWhile Char.isDigit), x.isDigit := by
        intro x hx
        rcases List.mem_cons.mp hx with rfl | hx
        · exact hdig
        · exact htdig x hx
      have hlen : (c :: cs.takeWhile Char.isDigit).length < 6 := by omega
      have hcons : c :: cs = (c :: cs.takeWhile Char.isDigit) ++ cs.dropWhile Char.isDigit := by
        rw [List.cons_append, ← hsplit]
      rw [hcons]
      cases hd2 : cs.dropWhile Char.isDigit with
      | nil => rw [List.append_nil]; exact searchSixDigits_eq_none_of_short _ hlen
      | cons e ds =>
        have hnd := List.head?_dropWhile_not Char.isDigit cs
        rw [hd2] at hnd
        simp only [List.head?_cons] at hnd
        exact searchSixDigits_append_of_digits ds hall hlen hnd
  | case3 c cs hdig ih =>
    have hdr : digitRuns (c :: cs) = digitRuns cs := by
      rw [digitRuns]
      simp [hdig]
    rw [hdr, searchSixDigits_cons_of_not_digit cs (by simpa using hdig), ih]

/-- The view produced by the parser is always one of the stem's
underscore tokens. -/
theorem parse_metadata_view_mem (filename : Str) :
    (parse_metadata filename).view ∈ splitUnderscore (splitextStem filename) := by
  unfold parse_metadata
  have hne := splitUnderscore_ne_nil (splitextStem filename)
  by_cases h : (splitUnderscore (splitextStem filename)).length > 3
  · have h3 : 3 < (splitUnderscore (splitextStem filename)).length := h
    simp only [h, if_pos, List.getD_eq_getElem?_getD, List.getElem?_eq_getElem h3,
      Option.getD_some]
    exact List.getElem_mem h3
  · simp only [h, if_neg, not_false_iff, List.getLastD_eq_getLast?,
      List.getLast?_eq_getLast _ hne, Option.getD_some]
    exact List.getLast_mem hne

/-! ## Sorting lemmas: the per-view sort is an ordered, stable
permutation -/

/-- `insertSorted` splits the list at the first entry with a strictly
greater key and puts the new entry there. -/
theorem insertSorted_split (e : Frame) (l : List Frame) :
    ∃ l₁ l₂, insertSorted e l = l₁ ++ e :: l₂ ∧ l = l₁ ++ l₂ ∧
      (∀ x ∈ l₁, x.1 ≤ e.1) ∧ (∀ x, l₂.head? = some x → e.1 < x.1) := by
  induction l with
  | nil => exact ⟨[], [], rfl, rfl, by simp, by simp⟩
  | cons x xs ih =>
    by_cases hx : x.1 ≤ e.1
    · obtain ⟨l₁, l₂, h1, h2, h3, h4⟩ := ih
      refine ⟨x :: l₁, l₂, ?_, ?_, ?_, h4⟩
      · simp only [insertSorted, if_pos hx, h1, List.cons_append]
      · simp [h2]
      · intro y hy
        rcases List.mem_cons.mp hy with rfl | hy
        · exact hx
        · exact h3 y hy
    · refine ⟨[], x :: xs, ?_, rfl, by simp, ?_⟩
      · simp only [insertSorted, if_neg hx, List.nil_append]
      · intro y hy
        simp only [List.head?_cons, Option.some_inj] at hy
        subst hy
        omega

theorem insertSorted_perm (e : Frame) (l : List Frame) :
    List.Perm (insertSorted e l) (e :: l) := by
  induction l with
  | nil => simp [insertSorted]
  | cons x xs ih =>
    by_cases hx : x.1 ≤ e.1
    · simp only [insertSorted, if_pos hx]
      exact (ih.cons x).trans (List.Perm.swap e x xs)
    · simp [insertSorted, if_neg hx]

theorem insertSorted_pairwise {e : Frame} {l : List Frame}
    (hl : l.Pairwise (fun a b : Frame => a.1 ≤ b.1)) :
    (insertSorted e l).Pairwise (fun a b : Frame => a.1 ≤ b.1) := by
  induction l with
  | nil => simp [insertSorted]
  | cons x xs ih =>
    rcases List.pairwise_cons.mp hl with ⟨hx_all, hxs⟩
    by_cases hx : x.1 ≤ e.1
    · simp only [insertSorted, if_pos hx]
      refine List.pairwise_cons.mpr ⟨?_, ih hxs⟩
      intro y hy
      have : y ∈ e :: xs := (insertSorted_perm e xs).mem_iff.mp hy
      rcases List.mem_cons.mp this with rfl | hy'
      · exact hx
      · exact hx_all y hy'
    · simp only [insertSorted, if_neg hx]
      refine List.pairwise_cons.mpr ⟨?_, hl⟩
      intro y hy
      have he : e.1 ≤ x.1 := by omega
      rcases List.mem_cons.mp hy with rfl | hy'
      · exact he
      · exact le_trans he (hx_all y hy')

/-- Filter form of stability for a single insertion into a sorted
list. -/
theorem insertSorted_filter_key {e : Frame} {l : List Frame}
    (hl : l.Pairwise (fun a b : Frame => a.1 ≤ b.1)) (k : Int) :
    (insertSorted e l).filter (fun x => decide (x.1 = k)) =
      if e.1 = k then l.filter (fun x => decide (x.1 = k)) ++ [e]
      else l.filter (fun x => decide (x.1 = k)) := by
  induction l with
  | nil =>
    simp only [insertSorted, List.filter_nil, List.nil_append]
    by_cases he : e.1 = k <;> simp [he]
  | cons x xs ih =>
    rcases List.pairwise_cons.mp hl with ⟨hx_all, hxs⟩
    by_cases hx : x.1 ≤ e.1
    · simp only [insertSorted, if_pos hx, List.filter_cons, ih hxs]
      by_cases hxk : x.1 = k <;> by_cases hek : e.1 = k <;> simp [hxk, hek]
    · have hlt : e.1 < x.1 := by omega
      simp only [insertSorted, if_neg hx]
      by_cases hek : e.1 = k
      · have hnone : (x :: xs).filter (fun y => decide (y.1 = k)) = [] := by
          rw [List.filter_eq_nil_iff]
          intro y hy
          rcases List.mem_cons.mp hy with rfl | hy'
          · simp only [decide_eq_true_eq]; omega
          · have := hx_all y hy'
            simp only [decide_eq_true_eq]; omega
        rw [if_pos hek, List.filter_cons, hnone]
        simp [hek]
      · rw [if_neg hek, List.filter_cons]
        simp [hek]

/-- The three contract properties of the per-view sort: ordered by key,
a permutation of the input, and stable (the entries of any fixed key
keep their input order). -/
theorem stableSortKey_spec (l : List Frame) :
    (stableSortKey l).Pairwise (fun a b : Frame => a.1 ≤ b.1) ∧
    List.Perm (stableSortKey l) l ∧
    ∀ k : Int, (stableSortKey l).filter (fun x => decide (x.1 = k)) =
      l.filter (fun x => decide (x.1 = k)) := by
  suffices H : ∀ (rest acc processed : List Frame),
      acc.Pairwise (fun a b : Frame => a.1 ≤ b.1) →
      List.Perm acc processed →
      (∀ k : Int, acc.filter (fun x => decide (x.1 = k)) =
        processed.filter (fun x => decide (x.1 = k))) →
      (rest.foldl (fun acc e => insertSorted e acc) acc).Pairwise
          (fun a b : Frame => a.1 ≤ b.1) ∧
        List.Perm (rest.foldl (fun acc e => insertSorted e acc) acc)
          (processed ++ rest) ∧
        ∀ k : Int, ((rest.foldl (fun acc e => insertSorted e acc) acc).filter
            (fun x => decide (x.1 = k))) =
          (processed ++ rest).filter (fun x => decide (x.1 = k)) by
    have := H l [] [] (by simp) (List.Perm.refl []) (fun k => rfl)
    simpa [stableSortKey] using this
  intro rest
  induction rest with
  | nil =>
    intro acc processed hpair hperm hfil
    simpa using ⟨hpair, hperm, hfil⟩
  | cons e rest ih =>
    intro acc processed hpair hperm hfil
    rw [List.foldl_cons]
    have hstep := ih (insertSorted e acc) (processed ++ [e])
      (insertSorted_pairwise hpair)
      (((insertSorted_perm e acc).trans (hperm.cons e)).trans
        (List.perm_append_singleton e processed).symm)
      (by
        intro k
        rw [insertSorted_filter_key hpair k, List.filter_append]
        by_cases hek : e.1 = k <;> simp [hek, hfil k])
    refine ⟨hstep.1, ?_, ?_⟩
    · refine hstep.2.1.trans (List.Perm.of_eq ?_)
      simp
    · intro k
      rw [hstep.2.2 k]
      simp

/-! ## Index-builder invariants -/

theorem viewInsert_builtFrom {dirPath : PathC} {m : ViewMap} {fname : Str}
    (hm : BuiltFrom dirPath m) :
    BuiltFrom dirPath (viewInsert m (parse_metadata fname).view
      ((parse_metadata fname).sort_key, dirPath ++ [fname])) := by
  induction m with
  | nil =>
    intro p hp
    simp only [viewInsert, List.mem_singleton] at hp
    subst hp
    refine ⟨by simp, ?_⟩
    intro x hx
    simp only [List.mem_singleton] at hx
    exact ⟨fname, hx, rfl⟩
  | cons q m ih =>
    obtain ⟨qv, qseq⟩ := q
    intro p hp
    simp only [viewInsert] at hp
    by_cases hv : qv = (parse_metadata fname).view
    · rw [if_pos hv] at hp
      rcases List.mem_cons.mp hp with rfl | hp
      · refine ⟨by simp, ?_⟩
        intro x hx
        rcases List.mem_append.mp hx with hx | hx
        · obtain ⟨f', hf1, hf2⟩ := (hm (qv, qseq) (List.mem_cons_self _ m)).2 x hx
          exact ⟨f', hf1, hf2⟩
        · simp only [List.mem_singleton] at hx
          exact ⟨fname, hx, hv⟩
      · exact hm p (List.mem_cons_of_mem _ hp)
    · rw [if_neg hv] at hp
      rcases List.mem_cons.mp hp with rfl | hp
      · exact hm _ (List.mem_cons_self _ m)
      · exact ih (fun r hr => hm r (List.mem_cons_of_mem _ hr)) p hp

/-- Every view map produced by the per-file loop satisfies
`BuiltFrom`. -/
theorem buildViewMap_builtFrom (dirPath : PathC) (files : List Str) :
    BuiltFrom dirPath (buildViewMap dirPath files) := by
  unfold buildViewMap
  suffices H : ∀ (fs : List Str) (m : ViewMap), BuiltFrom dirPath m →
      BuiltFrom dirPath (fs.foldl (fun m f =>
        let meta := parse_metadata f
        viewInsert m meta.view (meta.sort_key, dirPath ++ [f])) m) by
    exact H files [] (by intro p hp; simp at hp)
  intro fs
  induction fs with
  | nil => intro m hm; exact hm
  | cons f fs ih =>
    intro m hm
    exact ih _ (viewInsert_builtFrom hm)

/-- Membership in a sorted view map: each view's sequence is the stable
sort of the corresponding raw (enumeration-order) sequence. -/
theorem sortViewMap_mem {m : ViewMap} {p : Str × List Frame}
    (hp : p ∈ sortViewMap m) :
    ∃ raw, (p.1, raw) ∈ m ∧ p.2 = stableSortKey raw := by
  unfold sortViewMap at hp
  obtain ⟨⟨v, raw⟩, hmem, hEq⟩ := List.mem_map.mp hp
  exact ⟨raw, by rw [← hEq] at *; exact ⟨hmem, rfl⟩⟩

/-! ## Dict (association-list) lemmas -/

theorem dsGet_nil (caseId : Str) : dsGet [] caseId = none := rfl

theorem dsGet_cons (c : Str) (m : ViewMap) (ds : Dataset) (x : Str) :
    dsGet ((c, m) :: ds) x = if c = x then some m else dsGet ds x := by
  unfold dsGet
  by_cases h : c = x
  · rw [List.find?_cons_of_pos _ (by simpa using h), if_pos h]; rfl
  · rw [List.find?_cons_of_neg _ (by simpa using h), if_neg h]

theorem dsGet_dsSet_self (ds : Dataset) (caseId : Str) (vm : ViewMap) :
    dsGet (dsSet ds caseId vm) caseId = some vm := by
  induction ds with
  | nil => rw [show dsSet [] caseId vm = [(caseId, vm)] from rfl, dsGet_cons, if_pos rfl]
  | cons q ds ih =>
    obtain ⟨c, m⟩ := q
    by_cases hc : c = caseId
    · simp only [dsSet, if_pos hc]
      rw [dsGet_cons, if_pos hc]
    · simp only [dsSet, if_neg hc]
      rw [dsGet_cons, if_neg hc, ih]

theorem dsGet_dsSet_ne (ds : Dataset) (caseId other : Str) (vm : ViewMap)
    (h : other ≠ caseId) :
    dsGet (dsSet ds caseId vm) other = dsGet ds other := by
  induction ds with
  | nil =>
    rw [show dsSet [] caseId vm = [(caseId, vm)] from rfl, dsGet_cons,
      if_neg (fun hh => h hh.symm)]
  | cons q ds ih =>
    obtain ⟨c, m⟩ := q
    by_cases hc : c = caseId
    · subst hc
      have hset : dsSet ((c, m) :: ds) c vm = (c, vm) :: ds := by simp [dsSet]
      rw [hset, dsGet_cons, dsGet_cons, if_neg (fun hh => h hh.symm),
        if_neg (fun hh => h hh.symm)]
    · simp only [dsSet, if_neg hc]
      rw [dsGet_cons, dsGet_cons, ih]

/-- Structure of everything `load_image_metadata` puts in the dataset:
a case's entry exists only with the directory listing that produced it,
and is exactly the sorted view map built from its raster files. -/
theorem load_image_metadata_spec (fs : FileSys) (root_dir : Str)
    (selected_cases : List Str) (variable_folder : Str) (caseId : Str) (vm : ViewMap)
    (h : dsGet (load_image_metadata fs root_dir selected_cases variable_folder) caseId
      = some vm) :
    ∃ entries, fs (imagesDirPath root_dir caseId variable_folder) = some entries ∧
      vm = sortViewMap (buildViewMap (imagesDirPath root_dir caseId variable_folder)
        (entries.filter hasImageExt)) := by
  unfold load_image_metadata at h
  suffices H : ∀ (ds : Dataset),
      (∀ c v, dsGet ds c = some v →
        ∃ entries, fs (imagesDirPath root_dir c variable_folder) = some entries ∧
          v = sortViewMap (buildViewMap (imagesDirPath root_dir c variable_folder)
            (entries.filter hasImageExt))) →
      ∀ c v, dsGet (selected_cases.foldl (fun dataset caseId =>
          match fs (imagesDirPath root_dir caseId variable_folder) with
          | none => dataset
          | some entries =>
            dsSet dataset caseId (sortViewMap
              (buildViewMap (imagesDirPath root_dir caseId variable_folder)
                (entries.filter hasImageExt)))) ds) c = some v →
        ∃ entries, fs (imagesDirPath root_dir c variable_folder) = some entries ∧
          v = sortViewMap (buildViewMap (imagesDirPath root_dir c variable_folder)
            (entries.filter hasImageExt)) by
    exact H [] (by intro c v hv; rw [dsGet_nil] at hv; exact Option.noConfusion hv)
      caseId vm h
  clear h
  induction selected_cases with
  | nil => intro ds hds c v hv; exact hds c v hv
  | cons a rest ih =>
    intro ds hds c v hv
    rw [List.foldl_cons] at hv
    refine ih _ ?_ c v hv
    intro c' v' hv'
    cases hfs : fs (imagesDirPath root_dir a variable_folder) with
    | none => rw [hfs] at hv'; exact hds c' v' hv'
    | some entries =>
      rw [hfs] at hv'
      by_cases hca : c' = a
      · subst hca
        rw [dsGet_dsSet_self] at hv'
        exact ⟨entries, hfs, (Option.some_inj.mp hv').symm⟩
      · rw [dsGet_dsSet_ne _ _ _ _ hca] at hv'
        exact hds c' v' hv'

/-! ## Lookup lemmas -/

/-- A view lookup succeeds exactly when the view is among the map's
keys. -/
theorem vmGet_isSome_iff (vm : ViewMap) (v : Str) :
    (∃ seq, vmGet vm v = some seq) ↔ v ∈ vm.map (fun p => p.1) := by
  constructor
  · rintro ⟨seq, hs⟩
    unfold vmGet at hs
    obtain ⟨p, hp, hps⟩ := Option.map_eq_some'.mp hs
    have hpv : p.1 = v := by simpa using List.find?_some hp
    exact List.mem_map.mpr ⟨p, List.mem_of_find?_eq_some hp, hpv⟩
  · intro hv
    obtain ⟨p, hp, hpv⟩ := List.mem_map.mp hv
    have : (vm.find? (fun q => decide (q.1 = v))).isSome :=
      List.find?_isSome.mpr ⟨p, hp, by simpa using hpv⟩
    obtain ⟨q, hq⟩ := Option.isSome_iff_exists.mp this
    exact ⟨q.2, by unfold vmGet; rw [hq]; rfl⟩

/-- Whatever a successful view lookup returns is one of the map's
entries. -/
theorem vmGet_mem {vm : ViewMap} {v : Str} {seq : List Frame}
    (h : vmGet vm v = some seq) : (v, seq) ∈ vm := by
  unfold vmGet at h
  obtain ⟨p, hp, hps⟩ := Option.map_eq_some'.mp h
  have hpv : p.1 = v := by simpa using List.find?_some hp
  have := List.mem_of_find?_eq_some hp
  rwa [show p = (v, seq) from Prod.ext hpv hps] at this

/-! ## Computability bridge for `digitRuns` -/

/-- Continuing `digitRunsAux` with a non-empty partial run in the
accumulator extends that run with the digits that follow. -/
theorem digitRunsAux_cont (cs : Str) : ∀ (acc : Str), acc ≠ [] →
    digitRunsAux cs acc =
      (acc.reverse ++ cs.takeWhile Char.isDigit) ::
        digitRunsAux (cs.dropWhile Char.isDigit) [] := by
  induction cs with
  | nil =>
    intro acc hacc
    simp [digitRunsAux, hacc]
  | cons x cs ih =>
    intro acc hacc
    by_cases hx : x.isDigit
    · rw [show digitRunsAux (x :: cs) acc = digitRunsAux cs (x :: acc) by
        simp [digitRunsAux, hx]]
      rw [ih (x :: acc) (by simp)]
      simp only [List.takeWhile_cons, hx, if_pos, List.dropWhile_cons]
      rw [List.reverse_cons, List.append_assoc, List.singleton_append]
    · have hxf : x.isDigit = false := by simpa using hx
      rw [show digitRunsAux (x :: cs) acc = acc.reverse :: digitRunsAux cs [] by
        simp [digitRunsAux, hxf, hacc]]
      have h1 : (x :: cs).takeWhile Char.isDigit = [] := by
        simp [List.takeWhile_cons, hxf]
      have h2 : (x :: cs).dropWhile Char.isDigit = x :: cs := by
        simp [List.dropWhile_cons, hxf]
      rw [h1, h2, List.append_nil]
      rw [show digitRunsAux (x :: cs) [] = digitRunsAux cs [] by
        simp [digitRunsAux, hxf]]

/-- The structural accumulator implementation computes `digitRuns`. -/
theorem digitRuns_eq_digitRunsAux (s : Str) : digitRuns s = digitRunsAux s [] := by
  induction s using digitRuns.induct with
  | case1 => simp [digitRuns, digitRunsAux]
  | case2 c cs hdig ih =>
    rw [digitRuns]
    simp only [hdig, if_pos]
    rw [ih]
    rw [show digitRunsAux (c :: cs) [] = digitRunsAux cs [c] by
      simp [digitRunsAux, hdig]]
    rw [digitRunsAux_cont cs [c] (by simp)]
    simp
  | case3 c cs hdig ih =>
    rw [digitRuns, if_neg hdig]
    have hcf : c.isDigit = false := by simpa using hdig
    rw [ih, show digitRunsAux (c :: cs) [] = digitRunsAux cs [] by
      simp [digitRunsAux, hcf]]

/-! ## Common-view reconciliation lemmas -/

/-- Soundness of the intersection loop, relative to an accumulator that
already holds a candidate set. -/
theorem commonViewsLoop_sound (dataset : Dataset) :
    ∀ (cases : List Str) (cur views : List Str),
      commonViewsLoop dataset cases (some cur) = some (some views) →
      ∀ v, v ∈ views ↔ (v ∈ cur ∧ ∀ c ∈ cases, ∃ vm, dsGet dataset c = some vm ∧
        v ∈ vm.map (fun p => p.1)) := by
  intro cases
  induction cases with
  | nil =>
    intro cur views h v
    simp only [commonViewsLoop, Option.some_inj] at h
    subst h
    simp
  | cons c rest ih =>
    intro cur views h v
    rw [commonViewsLoop] at h
    cases hg : dsGet dataset c with
    | none => rw [hg] at h; exact Option.noConfusion h
    | some vm =>
      rw [hg] at h
      have h2 := ih _ views h v
      rw [h2, List.mem_filter]
      constructor
      · rintro ⟨⟨hcur, hdec⟩, hrest⟩
        refine ⟨hcur, ?_⟩
        intro c' hc'
        rcases List.mem_cons.mp hc' with rfl | hc'
        · exact ⟨vm, hg, by simpa using hdec⟩
        · exact hrest c' hc'
      · rintro ⟨hcur, hall⟩
        refine ⟨⟨hcur, ?_⟩, fun c' hc' => hall c' (List.mem_cons_of_mem _ hc')⟩
        obtain ⟨vm', hvm', hv'⟩ := hall c (List.mem_cons_self _ _)
        rw [hg] at hvm'
        obtain rfl := Option.some_inj.mp hvm'
        simpa using hv'

/-- When the common-views computation completes without a `KeyError`,
the set it returns is exactly the intersection of the per-case view
sets. -/
theorem common_views_sound (dataset : Dataset) (selected_cases : List Str)
    (views : List Str) (hne : selected_cases ≠ [])
    (h : common_views dataset selected_cases = some (some views)) :
    ∀ v, v ∈ views ↔ ∀ c ∈ selected_cases, ∃ vm, dsGet dataset c = some vm ∧
      v ∈ vm.map (fun p => p.1) := by
  cases selected_cases with
  | nil => exact absurd rfl hne
  | cons c rest =>
    intro v
    unfold common_views at h
    rw [commonViewsLoop] at h
    cases hg : dsGet dataset c with
    | none => rw [hg] at h; exact Option.noConfusion h
    | some vm =>
      rw [hg] at h
      have h2 := commonViewsLoop_sound dataset rest _ views h v
      rw [h2]
      constructor
      · rintro ⟨hkeys, hrest⟩
        intro c' hc'
        rcases List.mem_cons.mp hc' with rfl | hc'
        · exact ⟨vm, hg, hkeys⟩
        · exact hrest c' hc'
      · intro hall
        refine ⟨?_, fun c' hc' => hall c' (List.mem_cons_of_mem _ hc')⟩
        obtain ⟨vm', hvm', hv'⟩ := hall c (List.mem_cons_self _ _)
        rw [hg] at hvm'
        obtain rfl := Option.some_inj.mp hvm'
        exact hv'

/-! ## Frame resolution lemmas -/

/-- On a non-empty sequence the clamped lookup always succeeds. -/
theorem resolveFrame_isSome {seq : List Frame} (h : seq ≠ []) (pos : Nat) :
    ∃ fr, resolveFrame seq pos = some fr := by
  have hl : 0 < seq.length := List.length_pos.mpr h
  have hlt : min pos (seq.length - 1) < seq.length := by omega
  exact ⟨_, List.getElem?_eq_getElem hlt⟩

/-! ## The claims -/

/-- Claim C1, counterexample: in the stem of `a_1234567.png` the only
maximal digit run has length 7, so the claimed rule (a contiguous run of
exactly 6 digits, else the last digit run) yields 1234567; the code's
`re.search(r"(\d{6})")` instead matches the first six digits inside that
run and yields 123456. -/
theorem C1_counterexample :
    (parse_metadata "a_1234567.png".data).sort_key = 123456 ∧
    claimed_sort_key "a_1234567.png".data = 1234567 ∧
    (parse_metadata "a_1234567.png".data).sort_key ≠
      claimed_sort_key "a_1234567.png".data := by
  refine ⟨by decide, ?_, ?_⟩ <;>
    simp only [claimed_sort_key, digitRuns_eq_digitRunsAux] <;> decide

/-- Claim C1, amended: `parse` extracts the sort key by searching the
stem for six consecutive digits (anywhere, also inside a longer digit
run): if some maximal digit run has length at least 6, the sort key is
the first six digits of the first such run parsed as an integer;
otherwise, if the stem contains at least one digit run, the sort key is
the last run parsed as an integer; otherwise the sort key is 0. -/
theorem C1_amended_sort_key_rule (filename : Str) :
    (parse_metadata filename).sort_key = amended_sort_key_rule filename := by
  unfold parse_metadata amended_sort_key_rule
  simp only [searchSixDigits_eq_digitRuns]
  cases h : (digitRuns (splitextStem filename)).find? (fun r => decide (6 ≤ r.length)) with
  | none => simp [h]
  | some r => simp [h]

/-- Claim C2: after stripping the extension and splitting the stem on
`_`, the parsed view is the token at position 3 when more than 3 tokens
exist, and the last token otherwise; in particular
`flow_slice_velocity_FRONT_001234.png` yields view `FRONT` with sort key
1234, and `sim_x_y_TOP_000042_extra.jpg` yields view `TOP` with sort key
42. -/
theorem C2_view_rule (filename : Str) :
    (if 3 < (splitUnderscore (splitextStem filename)).length
      then (splitUnderscore (splitextStem filename))[3]? =
        some (parse_metadata filename).view
      else (splitUnderscore (splitextStem filename)).getLast? =
        some (parse_metadata filename).view) ∧
    parse_metadata "flow_slice_velocity_FRONT_001234.png".data =
      { view := "FRONT".data, sort_key := 1234 } ∧
    parse_metadata "sim_x_y_TOP_000042_extra.jpg".data =
      { view := "TOP".data, sort_key := 42 } := by
  refine ⟨?_, by decide, by decide⟩
  by_cases h : 3 < (splitUnderscore (splitextStem filename)).length
  · rw [if_pos h]
    unfold parse_metadata
    simp [h, List.getElem?_eq_getElem h]
  · rw [if_neg h]
    have hne := splitUnderscore_ne_nil (splitextStem filename)
    unfold parse_metadata
    simp [h, List.getLast?_eq_getLast _ hne]

/-- Claim C3: on a non-empty sequence the clamped frame lookup never
fails for any requested position, never wraps around, and at any
position at or beyond the sequence length it returns the last frame
(effective index `min(position, n-1) = n-1`). -/
theorem C3_resolve_freezes_on_last (seq : List Frame) (h : seq ≠ []) :
    (∀ pos, ∃ fr, resolveFrame seq pos = some fr) ∧
    (∀ pos, seq.length ≤ pos → resolveFrame seq pos = some (seq.getLast h)) := by
  refine ⟨fun pos => resolveFrame_isSome h pos, ?_⟩
  intro pos hp
  have hl : 0 < seq.length := List.length_pos.mpr h
  have hmin : min pos (seq.length - 1) = seq.length - 1 := by omega
  unfold resolveFrame
  rw [hmin, List.getElem?_eq_getElem (by omega)]
  rw [List.getLast_eq_getElem]

/-- Claim C3, witness: a 3-frame sequence requested at position 4
resolves to its last frame (index 2, not index 0), and a 5-frame
sequence at position 4 resolves to index 4. -/
theorem C3_witness :
    resolveFrame [(1, [['a']]), (2, [['b']]), (3, [['c']])] 4 = some (3, [['c']]) ∧
    resolveFrame [(1, []), (2, []), (3, []), (4, []), (5, [])] 4 = some (5, []) := by
  constructor
  · exact (C3_resolve_freezes_on_last [(1, [['a']]), (2, [['b']]), (3, [['c']])]
      (by decide)).2 4 (by decide)
  · decide

/-- Claim C4: the reconciled common-view set is exactly the
intersection of the view sets of all selected cases, and every view it
offers resolves to a non-missing frame for every selected case at every
requested position. -/
theorem C4_common_views_exact (fs : FileSys) (root_dir : Str)
    (selected_cases : List Str) (variable_folder : Str) (views : List Str)
    (hne : selected_cases ≠ [])
    (h : common_views (load_image_metadata fs root_dir selected_cases variable_folder)
        selected_cases = some (some views)) :
    (∀ v, v ∈ views ↔ ∀ c ∈ selected_cases, ∃ vm,
        dsGet (load_image_metadata fs root_dir selected_cases variable_folder) c
          = some vm ∧ v ∈ vm.map (fun p => p.1)) ∧
    (∀ v ∈ views, ∀ c ∈ selected_cases, ∀ pos, ∃ fr,
        resolveCase (load_image_metadata fs root_dir selected_cases variable_folder)
          v pos c = some fr) := by
  refine ⟨common_views_sound _ _ _ hne h, ?_⟩
  intro v hv c hc pos
  obtain ⟨vm, hvm, hkey⟩ := (common_views_sound _ _ _ hne h v).mp hv c hc
  obtain ⟨seq, hseq⟩ := (vmGet_isSome_iff vm v).mpr hkey
  obtain ⟨entries, hfs, hvmEq⟩ := load_image_metadata_spec _ _ _ _ _ _ hvm
  have hmem : (v, seq) ∈ vm := vmGet_mem hseq
  rw [hvmEq] at hmem
  obtain ⟨raw, hraw, hseqEq⟩ := sortViewMap_mem hmem
  have hrawne : raw ≠ [] := ((buildViewMap_builtFrom _ _) (v, raw) hraw).1
  have hne2 : seq ≠ [] := by
    intro hnil
    apply hrawne
    have hlen := (stableSortKey_spec raw).2.1.length_eq
    rw [← hseqEq, hnil] at hlen
    exact List.length_eq_zero.mp hlen.symm
  obtain ⟨fr, hfr⟩ := resolveFrame_isSome hne2 pos
  exact ⟨fr, by simp [resolveCase, hvm, hseq, hfr]⟩

/-- Claim C4, witness: case A has views {front, top}, case B has views
{front, side}; the reconciled set is exactly {front}, and front resolves
for case B even at position 5 (beyond its single frame). -/
theorem C4_witness :
    common_views dsAB ["A".data, "B".data] = some (some ["front".data]) ∧
    (∃ fr, resolveCase dsAB "front".data 5 "B".data = some fr) :=
  ⟨by decide,
    (C4_common_views_exact fsAB "root".data ["A".data, "B".data] "U".data
      ["front".data] (by decide) (by decide)).2 "front".data (by decide)
      "B".data (by decide) 5⟩

/-- Claim C5: every view sequence produced by the index builder is
non-empty, its sort keys are non-decreasing, and it is the stable
reordering of the enumeration-order raw sequence: a permutation in which
the entries of any fixed key keep their original relative order. -/
theorem C5_sequences_sorted_stable_nonempty (fs : FileSys) (root_dir : Str)
    (selected_cases : List Str) (variable_folder : Str) (caseId : Str)
    (vm : ViewMap) (view : Str) (seq : List Frame)
    (hvm : dsGet (load_image_metadata fs root_dir selected_cases variable_folder)
      caseId = some vm)
    (hseq : (view, seq) ∈ vm) :
    seq ≠ [] ∧
    seq.Pairwise (fun a b : Frame => a.1 ≤ b.1) ∧
    ∃ entries raw,
      fs (imagesDirPath root_dir caseId variable_folder) = some entries ∧
      (view, raw) ∈ buildViewMap (imagesDirPath root_dir caseId variable_folder)
        (entries.filter hasImageExt) ∧
      List.Perm seq raw ∧
      ∀ k : Int, seq.filter (fun e => decide (e.1 = k)) =
        raw.filter (fun e => decide (e.1 = k)) := by
  obtain ⟨entries, hfs, hvmEq⟩ := load_image_metadata_spec _ _ _ _ _ _ hvm
  rw [hvmEq] at hseq
  obtain ⟨raw, hraw, hseqEq⟩ := sortViewMap_mem hseq
  have hrawne : raw ≠ [] := ((buildViewMap_builtFrom _ _) (view, raw) hraw).1
  obtain ⟨hpair, hperm, hfil⟩ := stableSortKey_spec raw
  rw [← hseqEq] at hpair hperm hfil
  refine ⟨?_, hpair, entries, raw, hfs, hraw, hperm, hfil⟩
  intro hnil
  apply hrawne
  have hlen := hperm.length_eq
  rw [hnil] at hlen
  exact List.length_eq_zero.mp hlen.symm

/-- Claim C5, witness: case A's front sequence in the concrete dataset
(enumerated with keys [2, 1]) is non-empty and sorted to keys [1, 2]. -/
theorem C5_witness :
    seqAfront ≠ [] ∧
    seqAfront.Pairwise (fun a b : Frame => a.1 ≤ b.1) ∧
    ∃ entries raw,
      fsAB (imagesDirPath "root".data "A".data "U".data) = some entries ∧
      ("front".data, raw) ∈ buildViewMap (imagesDirPath "root".data "A".data "U".data)
        (entries.filter hasImageExt) ∧
      List.Perm seqAfront raw ∧
      ∀ k : Int, seqAfront.filter (fun e => decide (e.1 = k)) =
        raw.filter (fun e => decide (e.1 = k)) :=
  C5_sequences_sorted_stable_nonempty fsAB "root".data ["A".data, "B".data]
    "U".data "A".data vmA "front".data seqAfront (by decide) (by decide)

/-- Claim C6, counterexample: with no directory present, indexing
selected case "001" silently skips it: the returned dataset is empty and
has no entry for the case (rather than mapping the case to an empty
map), and the common-views caller's `dataset[case]` lookup then raises
`KeyError` (modelled `none`) instead of treating the case as having no
data. -/
theorem C6_counterexample :
    load_image_metadata (fun _ => none) "root".data ["001".data] "U".data = [] ∧
    dsGet (load_image_metadata (fun _ => none) "root".data ["001".data] "U".data)
      "001".data = none ∧
    common_views (load_image_metadata (fun _ => none) "root".data ["001".data] "U".data)
      ["001".data] = none := by
  refine ⟨by decide, by decide, by decide⟩

/-- Claim C6, amended: building the index for a case whose image
directory does not exist does not raise — the case is skipped and, when
it is the only selected case, the returned map is empty with no entry
for the case; the common-views caller then raises `KeyError` when it
indexes the dataset by that case, rather than recovering. -/
theorem C6_amended (fs : FileSys) (root_dir caseId variable_folder : Str)
    (h : fs (imagesDirPath root_dir caseId variable_folder) = none) :
    load_image_metadata fs root_dir [caseId] variable_folder = [] ∧
    common_views (load_image_metadata fs root_dir [caseId] variable_folder)
      [caseId] = none := by
  have hload : load_image_metadata fs root_dir [caseId] variable_folder = [] := by
    unfold load_image_metadata
    simp [h]
  refine ⟨hload, ?_⟩
  rw [hload]
  unfold common_views
  rw [commonViewsLoop, dsGet_nil]

/-- Claim C6, witness: the amended behaviour at a concrete absent
directory. -/
theorem C6_witness :
    load_image_metadata (fun _ => none) "r".data ["001".data] "V".data = [] ∧
    common_views (load_image_metadata (fun _ => none) "r".data ["001".data] "V".data)
      ["001".data] = none :=
  C6_amended (fun _ => none) "r".data "001".data "V".data rfl

/-- Claim C7, amended: no decode error is caught anywhere on the image
loading path (`load_and_resize_image` has no `try`/`except`, nor do the
per-case loops in `main`): if any selected case's frame fails to decode,
the whole per-case loading loop raises (returns `none`), instead of
dropping that frame and continuing with the rest. -/
theorem C7_amended {α : Type} (codec : Codec α) (dataset : Dataset)
    (view_selection : Str) (frame_index : Nat) (cases : List Str) (caseId : Str)
    (hmem : caseId ∈ cases)
    (hfail : loadOneCase codec dataset view_selection frame_index caseId = none) :
    loadImagesLoop codec dataset view_selection frame_index cases = none := by
  induction cases with
  | nil => exact absurd hmem (List.not_mem_nil _)
  | cons c rest ih =>
    rw [loadImagesLoop]
    rcases List.mem_cons.mp hmem with rfl | hmem'
    · rw [hfail]
    · cases hc : loadOneCase codec dataset view_selection frame_index c with
      | none => rfl
      | some img => rw [ih hmem']

/-- Claim C7, counterexample: in the concrete dataset, case A's front
frame at position 0 fails to decode while case B's decodes fine (loading
B alone succeeds); loading both returns `none` — the decode exception
aborts the loop — instead of a result in which A's frame was dropped and
B's kept. -/
theorem C7_counterexample :
    loadImagesLoop codecBad dsAB "front".data 0 ["B".data] = some [("B".data, 0)] ∧
    loadImagesLoop codecBad dsAB "front".data 0 ["A".data, "B".data] = none := by
  refine ⟨by decide, by decide⟩

/-- Claim C7, witness: the amended propagation at the concrete failing
decode. -/
theorem C7_witness :
    loadImagesLoop codecBad dsAB "front".data 0 ["A".data, "B".data] = none :=
  C7_amended codecBad dsAB "front".data 0 ["A".data, "B".data] "A".data
    (by decide) (by decide)

/-- Claim C8, counterexample: with 2 items the claimed policy gives 2
columns, but Grid View always uses 3 columns (`cols = 3`,
mainApp.py:377). -/
theorem C8_counterexample :
    grid_view_cols 2 = 3 ∧ claimedCols 2 = 2 ∧ grid_view_cols 2 ≠ claimedCols 2 := by
  refine ⟨rfl, rfl, by decide⟩

/-- Claim C8, amended: Grid View's column count is always 3, whatever
the item count; Side-by-Side lays the items out in one column per item
(and its case pickers always supply exactly 2); and the combined-grid
row count is the ceiling of itemCount / 3. -/
theorem C8_amended (n : Nat) :
    grid_view_cols n = 3 ∧
    side_by_side_cols n = n ∧
    (0 < n →
      n ≤ create_combined_grid_rows n (grid_view_cols n) * 3 ∧
      (create_combined_grid_rows n (grid_view_cols n) - 1) * 3 < n) := by
  refine ⟨rfl, rfl, ?_⟩
  intro hn
  unfold create_combined_grid_rows grid_view_cols
  omega

/-- Claim C8, witness: the amended layout arithmetic at 7 items: 3
columns and ceiling(7/3) = 3 rows. -/
theorem C8_witness :
    grid_view_cols 7 = 3 ∧ side_by_side_cols 7 = 7 ∧
    7 ≤ create_combined_grid_rows 7 (grid_view_cols 7) * 3 ∧
    (create_combined_grid_rows 7 (grid_view_cols 7) - 1) * 3 < 7 :=
  ⟨(C8_amended 7).1, (C8_amended 7).2.1, (C8_amended 7).2.2 (by decide)⟩

/-- Claim C9, counterexample: the malformed name `x.png` (no
underscores, no digits) parses without error to sort key 0, but its view
is `"x"`, not the claimed fallback `"Default"`: the `"Default"`
initialisation of the metadata dict is unconditionally overwritten. -/
theorem C9_counterexample :
    (parse_metadata "x.png".data).view = "x".data ∧
    (parse_metadata "x.png".data).view ≠ "Default".data ∧
    (parse_metadata "x.png".data).sort_key = 0 := by
  refine ⟨by decide, by decide, ?_⟩
  simp only [parse_metadata, digitRuns_eq_digitRunsAux]
  decide

/-- Claim C9, amended: the parser never raises on any input filename
(the partiality-checked parser always returns, agreeing with the total
one), and for malformed names only the sort key falls back to 0 (when
the stem has no digits); the view is always one of the stem's underscore
tokens, never the dead `"Default"` fallback. -/
theorem C9_amended (filename : Str) :
    parse_metadata_checked filename = some (parse_metadata filename) ∧
    (parse_metadata filename).view ∈ splitUnderscore (splitextStem filename) ∧
    (digitRuns (splitextStem filename) = [] →
      (parse_metadata filename).sort_key = 0) := by
  refine ⟨parse_metadata_checked_eq filename, parse_metadata_view_mem filename, ?_⟩
  intro hruns
  unfold parse_metadata
  simp only [searchSixDigits_eq_digitRuns]
  simp [hruns]

/-- Claim C9, witness: the amended behaviour at the digit-free malformed
name `x.png`. -/
theorem C9_witness :
    parse_metadata_checked "x.png".data = some (parse_metadata "x.png".data) ∧
    (parse_metadata "x.png".data).view ∈ splitUnderscore (splitextStem "x.png".data) ∧
    (parse_metadata "x.png".data).sort_key = 0 :=
  ⟨(C9_amended "x.png".data).1, (C9_amended "x.png".data).2.1,
    (C9_amended "x.png".data).2.2
      (by simp only [digitRuns_eq_digitRunsAux]; decide)⟩

/-- The parser's sort key is never negative: each branch is `int(...)`
of a digit string or the literal 0. -/
theorem parse_metadata_sort_key_nonneg (filename : Str) :
    0 ≤ (parse_metadata filename).sort_key := by
  unfold parse_metadata
  cases h : searchSixDigits (splitextStem filename) with
  | some run => simp [h]
  | none =>
    cases h2 : (digitRuns (splitextStem filename)).getLast? with
    | some run => simp [h, h2]
    | none => simp [h, h2]

/-- Claim C10: the parser's sort key is always a non-negative integer
(in the source every assignment to it is `0` or `int(...)`, never the
stem string), and every key of every sequence in a built dataset is such
a parser-produced key, so sequences are ordered by integer comparison on
one uniform key type. -/
theorem C10_sort_keys_are_ints (filename : Str) :
    0 ≤ (parse_metadata filename).sort_key ∧
    ∀ (fs : FileSys) (root_dir : Str) (selected_cases : List Str)
      (variable_folder caseId : Str) (vm : ViewMap) (view : Str)
      (seq : List Frame) (e : Frame),
      dsGet (load_image_metadata fs root_dir selected_cases variable_folder) caseId
        = some vm →
      (view, seq) ∈ vm → e ∈ seq →
      ∃ fname, e.1 = (parse_metadata fname).sort_key ∧ 0 ≤ e.1 := by
  refine ⟨parse_metadata_sort_key_nonneg filename, ?_⟩
  intro fs root_dir selected_cases variable_folder caseId vm view seq e hvm hseq he
  obtain ⟨entries, hfs, hvmEq⟩ := load_image_metadata_spec _ _ _ _ _ _ hvm
  rw [hvmEq] at hseq
  obtain ⟨raw, hraw, hseqEq⟩ := sortViewMap_mem hseq
  have heraw : e ∈ raw := by
    have hperm := (stableSortKey_spec raw).2.1
    rw [← hseqEq] at hperm
    exact hperm.mem_iff.mp he
  obtain ⟨fname, hf1, -⟩ := ((buildViewMap_builtFrom _ _) (view, raw) hraw).2 e heraw
  refine ⟨fname, ?_, ?_⟩
  · rw [hf1]
  · rw [hf1]
    exact parse_metadata_sort_key_nonneg fname

/-- Claim C10, witness: the key of case A's first front frame is the
non-negative integer parsed from its filename. -/
theorem C10_witness :
    (0 : Int) ≤ (parse_metadata "x_x_x_front_000001.png".data).sort_key ∧
    ∃ fname, (1 : Int) = (parse_metadata fname).sort_key ∧
      (0 : Int) ≤ (1 : Int) :=
  ⟨(C10_sort_keys_are_ints "x_x_x_front_000001.png".data).1,
    (C10_sort_keys_are_ints "x_x_x_front_000001.png".data).2 fsAB "root".data
      ["A".data, "B".data] "U".data "A".data vmA "front".data seqAfront
      (1, pathAU ++ ["x_x_x_front_000001.png".data]) (by decide) (by decide)
      (by decide)⟩

end CaseViewer
